import Mathlib

/-!
Verification of ralph-swe-agent against its specification.

Strings are modelled as `List Char`; Python text APIs used by the code
(`str.strip`, `str.lower`, `str.split`, end-anchored `re.sub`) are embedded
explicitly.  Python numbers are modelled as `Int`/`ℚ` (floats as exact
rationals).
-/

/- ===================================================================
   ralphsweagent/models/context_window.py
   =================================================================== -/

/-- ASCII model of the whitespace trimmed by Python `str.strip()`. -/
def isPySpace (c : Char) : Bool :=
  c = ' ' || c = '\t' || c = '\n' || c = '\r' || c = '\x0b' || c = '\x0c'

/-- Python `s.strip()`: drop leading and trailing whitespace. -/
def pyStrip (s : List Char) : List Char :=
  ((s.dropWhile isPySpace).reverse.dropWhile isPySpace).reverse

/-- Python `s.lower()` (ASCII model). -/
def pyLower (s : List Char) : List Char :=
  s.map Char.toLower

/-- Python `s.split("/")[-1]` guarded by `if "/" in s` as in
`normalize_model_name`: the segment after the last slash. -/
def afterLastSlash (s : List Char) : List Char :=
  if s.contains '/' then ((s.reverse.takeWhile (fun c => c ≠ '/'))).reverse else s

/-- ASCII decimal digit (model of the regex class on these model names). -/
def isAsciiDigit (c : Char) : Bool :=
  '0' ≤ c && c ≤ '9'

/-- Character class of the regex `[a-z0-9_]`. -/
def isTagChar (c : Char) : Bool :=
  ('a' ≤ c && c ≤ 'z') || isAsciiDigit c || c = '_'

/-- Python `re.sub(pat, "", s)` for an end-anchored pattern `pat`: remove the
suffix starting at the leftmost position whose remainder matches. -/
def subEndAnchored (isMatch : List Char → Bool) (s : List Char) : List Char :=
  match (List.range (s.length + 1)).find? (fun i => isMatch (s.drop i)) with
  | some i => s.take i
  | none => s

/-- Match for the alternative `-\d\x7b4\x7d-\d\x7b2\x7d-\d\x7b2\x7d$` of
`_DATE_SUFFIX_RE` against the whole remainder. -/
def isDateDashed : List Char → Bool
  | ['-', a, b, c, d, '-', e, f, '-', g, h] =>
    isAsciiDigit a && isAsciiDigit b && isAsciiDigit c && isAsciiDigit d &&
    isAsciiDigit e && isAsciiDigit f && isAsciiDigit g && isAsciiDigit h
  | _ => false

/-- Match for the alternative `-\d\x7b8\x7d$` of `_DATE_SUFFIX_RE`. -/
def isDateCompact : List Char → Bool
  | ['-', a, b, c, d, e, f, g, h] =>
    isAsciiDigit a && isAsciiDigit b && isAsciiDigit c && isAsciiDigit d &&
    isAsciiDigit e && isAsciiDigit f && isAsciiDigit g && isAsciiDigit h
  | _ => false

/-- One end-anchored match of `_DATE_SUFFIX_RE`. -/
def isDateSuffix (cs : List Char) : Bool :=
  isDateDashed cs || isDateCompact cs

/-- The quantization tags of `_QUANT_SUFFIX_RE`. -/
def quantTags : List (List Char) :=
  [('f' :: ['p', '8']), ('f' :: ['p', '1', '6']), ('b' :: ['f', '1', '6']),
   ('i' :: ['n', 't', '8']), ('i' :: ['n', 't', '4']), ('a' :: ['w', 'q']),
   ('g' :: ['p', 't', 'q']), ('g' :: ['g', 'u', 'f'])]

/-- Optional trailing `(?:-[a-z0-9_]+)?$` part shared by the quant pattern. -/
def isOptionalDashWord : List Char → Bool
  | [] => true
  | '-' :: w => (!w.isEmpty) && w.all isTagChar
  | _ => false

/-- One end-anchored match of `_QUANT_SUFFIX_RE` against the whole remainder. -/
def isQuantSuffix : List Char → Bool
  | '-' :: rest =>
    quantTags.any (fun t => t.isPrefixOf rest && isOptionalDashWord (rest.drop t.length))
  | _ => false

/-- One end-anchored match of `_Q_SUFFIX_RE` (`-q\d+(?:_[a-z0-9_]+)?$`). -/
def isQSuffix : List Char → Bool
  | '-' :: 'q' :: rest =>
    let ds := rest.takeWhile isAsciiDigit
    let r := rest.dropWhile isAsciiDigit
    (!ds.isEmpty) &&
      (match r with
       | [] => true
       | '_' :: w => (!w.isEmpty) && w.all isTagChar
       | _ => false)
  | _ => false

/-- Python `updated.endswith(suffix)` followed by `updated[:-len(suffix)]`. -/
def dropIfEndsWith (suf : List Char) (s : List Char) : List Char :=
  if suf.isSuffixOf s then s.take (s.length - suf.length) else s

/-- One pass of the suffix-stripping loop body of `normalize_model_name`:
date sub, then the three cosmetic suffixes in order, then quant sub, then
q sub (nested applications, innermost first). -/
def stripStep (s : List Char) : List Char :=
  subEndAnchored isQSuffix
    (subEndAnchored isQuantSuffix
      (dropIfEndsWith ('-' :: ['l', 'a', 't', 'e', 's', 't'])
        (dropIfEndsWith ('-' :: ['b', 'e', 't', 'a'])
          (dropIfEndsWith ('-' :: ['p', 'r', 'e', 'v', 'i', 'e', 'w'])
            (subEndAnchored isDateSuffix s)))))

/-- The `while True` fixpoint loop of `normalize_model_name`, with fuel.
Each productive pass strictly shortens the string, so `s.length + 1` fuel
always reaches the fixpoint. -/
def normLoopAux : Nat → List Char → List Char
  | 0, s => s
  | fuel + 1, s =>
    let u := stripStep s
    if u = s then s else normLoopAux fuel u

/-- The code's `normalize_model_name`: strip, lower, keep the segment after
the last slash, then iterate suffix stripping to a fixpoint. -/
def normalize_model_name (s : List Char) : List Char :=
  let n := afterLastSlash (pyLower (pyStrip s))
  normLoopAux (n.length + 1) n

/-- The segment after the first slash (the provider-prefix rule as the spec
words it: drop only the leading segment before the first slash). -/
def afterFirstSlash (s : List Char) : List Char :=
  if s.contains '/' then (s.dropWhile (fun c => c ≠ '/')).tail else s

/-- Modelled from the spec's words for comparison (claim C7): normalization
that drops only the segment before the first slash. -/
def normalize_model_name_firstSlash (s : List Char) : List Char :=
  let n := afterFirstSlash (pyLower (pyStrip s))
  normLoopAux (n.length + 1) n

example : normalize_model_name ("openai/gpt-4o-2024-08-06".toList) = "gpt-4o".toList := by decide
example : normalize_model_name ("anthropic/claude-3-5-sonnet-20240620".toList) = "claude-3-5-sonnet".toList := by decide
example : normalize_model_name ("Qwen/Qwen3-Coder-30B-A3B-Instruct-FP8".toList) = "qwen3-coder-30b-a3b-instruct".toList := by decide
example : normalize_model_name ("mistral-7b-instruct-v0.2-q4_k_m".toList) = "mistral-7b-instruct-v0.2".toList := by decide
example : normalize_model_name ("a/b/c".toList) = "c".toList := by decide
example : normalize_model_name_firstSlash ("a/b/c".toList) = "b/c".toList := by decide
example : normalize_model_name ("a/ b".toList) = " b".toList := by decide
example : normalize_model_name (" b".toList) = "b".toList := by decide

/- ===== supporting lemmas for normalize_model_name ===== -/

theorem toLower_toLower (c : Char) : Char.toLower (Char.toLower c) = Char.toLower c := by
  unfold Char.toLower
  by_cases h : 65 ≤ c.toNat ∧ c.toNat ≤ 90
  · rw [if_pos h]
    have hv : (c.toNat + 32).isValidChar := Or.inl (by omega)
    have h32 : (Char.ofNat (c.toNat + 32)).toNat = c.toNat + 32 := by
      rw [Char.ofNat, dif_pos hv]; rfl
    rw [if_neg (by omega)]
  · rw [if_neg h, if_neg h]

theorem subEndAnchored_isPre (m : List Char → Bool) (s : List Char) :
    subEndAnchored m s <+: s := by
  unfold subEndAnchored
  cases (List.range (s.length + 1)).find? (fun i => m (s.drop i)) with
  | none => exact List.prefix_refl s
  | some i => exact List.take_prefix i s

theorem dropIfEndsWith_isPre (suf s : List Char) : dropIfEndsWith suf s <+: s := by
  unfold dropIfEndsWith
  split
  · exact List.take_prefix _ s
  · exact List.prefix_refl s

theorem stripStep_isPre (s : List Char) : stripStep s <+: s :=
  (subEndAnchored_isPre _ _).trans
    ((subEndAnchored_isPre _ _).trans
      ((dropIfEndsWith_isPre _ _).trans
        ((dropIfEndsWith_isPre _ _).trans
          ((dropIfEndsWith_isPre _ _).trans (subEndAnchored_isPre _ _)))))

theorem stripStep_length_lt (s : List Char) (h : stripStep s ≠ s) :
    (stripStep s).length < s.length := by
  rcases Nat.lt_or_ge (stripStep s).length s.length with hlt | hge
  · exact hlt
  · exact absurd
      ((stripStep_isPre s).eq_of_length (Nat.le_antisymm (stripStep_isPre s).length_le hge)) h

theorem normLoopAux_isPre (fuel : Nat) (s : List Char) : normLoopAux fuel s <+: s := by
  induction fuel generalizing s with
  | zero => exact List.prefix_refl s
  | succ n ih =>
    show (if stripStep s = s then s else normLoopAux n (stripStep s)) <+: s
    split
    · exact List.prefix_refl s
    · exact (ih (stripStep s)).trans (stripStep_isPre s)

theorem normLoopAux_fix (fuel : Nat) (s : List Char) (h : s.length < fuel) :
    stripStep (normLoopAux fuel s) = normLoopAux fuel s := by
  induction fuel generalizing s with
  | zero => omega
  | succ n ih =>
    show stripStep (if stripStep s = s then s else normLoopAux n (stripStep s)) =
      (if stripStep s = s then s else normLoopAux n (stripStep s))
    split
    · assumption
    · next hne => exact ih (stripStep s) (by have := stripStep_length_lt s hne; omega)

theorem normLoopAux_of_fix (fuel : Nat) (s : List Char) (h : stripStep s = s) :
    normLoopAux fuel s = s := by
  cases fuel with
  | zero => rfl
  | succ n => simp [normLoopAux, h]

theorem afterLastSlash_isSuf (s : List Char) : afterLastSlash s <:+ s := by
  unfold afterLastSlash
  split
  · have h := List.reverse_suffix.mpr
      (List.takeWhile_prefix (l := s.reverse) (fun c => c ≠ '/'))
    simpa using h
  · exact List.suffix_refl s

theorem not_mem_afterLastSlash (s : List Char) : '/' ∉ afterLastSlash s := by
  unfold afterLastSlash
  split
  · intro hmem
    rw [List.mem_reverse] at hmem
    have := List.mem_takeWhile_imp hmem
    simp at this
  · next hc =>
    intro hmem
    exact hc (by simpa [List.contains] using hmem)

theorem afterLastSlash_of_not_mem (s : List Char) (h : '/' ∉ s) :
    afterLastSlash s = s := by
  unfold afterLastSlash
  rw [if_neg]
  intro hc
  exact h (by simpa [List.contains] using hc)

theorem takeWhile_append_stop (p : Char → Bool) (xs ys : List Char) (y : Char)
    (hxs : ∀ a ∈ xs, p a = true) (hy : p y = false) :
    (xs ++ y :: ys).takeWhile p = xs := by
  induction xs with
  | nil => simp [List.takeWhile_cons, hy]
  | cons a as ih =>
    have ha : p a = true := hxs a (List.mem_cons_self a as)
    simp [List.takeWhile_cons, ha,
      ih (fun b hb => hxs b (List.mem_cons_of_mem a hb))]

theorem afterLastSlash_append (u v : List Char) (hv : '/' ∉ v) :
    afterLastSlash (u ++ '/' :: v) = v := by
  unfold afterLastSlash
  rw [if_pos (by simp [List.contains])]
  rw [List.reverse_append, List.reverse_cons, List.append_assoc, List.singleton_append]
  rw [takeWhile_append_stop _ v.reverse u.reverse '/'
    (by intro a ha; rw [List.mem_reverse] at ha; simp; exact fun hEq => hv (hEq ▸ ha))
    (by simp)]
  exact List.reverse_reverse v

theorem map_id_of_mem (f : Char → Char) (l : List Char) (h : ∀ a ∈ l, f a = a) :
    l.map f = l := by
  induction l with
  | nil => rfl
  | cons a as ih =>
    simp [h a (List.mem_cons_self a as),
      ih (fun b hb => h b (List.mem_cons_of_mem a hb))]

/- ===== claims C7 and C8 ===== -/

/-- Counterexample to C7 as stated: `"a/b/c"` contains a slash, yet the code
does not keep everything after the first slash — it keeps only the segment
after the last slash. -/
theorem C7_counterexample :
    (("a/b/c".toList).contains '/') = true ∧
    normalize_model_name ("a/b/c".toList) ≠
      normalize_model_name_firstSlash ("a/b/c".toList) := by
  constructor
  · decide
  · decide

/-- C7 (amended): for every model name containing a slash, normalize
lower-cases and trims the name and drops everything up to and including the
LAST slash (so for a name with more than one slash, every leading segment is
removed) before suffix stripping. -/
theorem C7_normalize_keeps_segment_after_last_slash (s u v : List Char)
    (hdecomp : pyLower (pyStrip s) = u ++ '/' :: v) (hv : '/' ∉ v) :
    normalize_model_name s = normLoopAux (v.length + 1) v := by
  unfold normalize_model_name
  rw [hdecomp, afterLastSlash_append u v hv]

theorem C7_witness :
    (pyLower (pyStrip ("A/b/gpt-4".toList)) = "a/b".toList ++ '/' :: "gpt-4".toList) ∧
    '/' ∉ "gpt-4".toList ∧
    normalize_model_name ("A/b/gpt-4".toList) =
      normLoopAux ("gpt-4".toList.length + 1) ("gpt-4".toList) :=
  ⟨by decide, by decide,
    C7_normalize_keeps_segment_after_last_slash ("A/b/gpt-4".toList)
      ("a/b".toList) ("gpt-4".toList) (by decide) (by decide)⟩

/-- Counterexample to C8 as stated: `"a/ b"` normalizes to `" b"`, which
normalizes again to `"b"`; `normalize` is not idempotent on every string. -/
theorem C8_counterexample :
    normalize_model_name (normalize_model_name ("a/ b".toList)) ≠
      normalize_model_name ("a/ b".toList) := by
  decide

/-- C8 (amended): `normalize` is idempotent on every model-name string whose
normal form carries no leading or trailing whitespace (in particular on all
names built from provider prefixes, date suffixes and quantization suffixes
stacked in any order, which contain none): trimming is the single stage that
can fire again on a second pass. -/
theorem C8_normalize_idempotent (s : List Char)
    (h : pyStrip (normalize_model_name s) = normalize_model_name s) :
    normalize_model_name (normalize_model_name s) = normalize_model_name s := by
  have hy : normalize_model_name s =
      normLoopAux ((afterLastSlash (pyLower (pyStrip s))).length + 1)
        (afterLastSlash (pyLower (pyStrip s))) := rfl
  have hpre : normalize_model_name s <+: afterLastSlash (pyLower (pyStrip s)) := by
    rw [hy]; exact normLoopAux_isPre _ _
  have hfix : stripStep (normalize_model_name s) = normalize_model_name s := by
    rw [hy]; exact normLoopAux_fix _ _ (Nat.lt_succ_self _)
  have hslash : '/' ∉ normalize_model_name s := fun hmem =>
    not_mem_afterLastSlash (pyLower (pyStrip s)) (hpre.subset hmem)
  have hlower : pyLower (normalize_model_name s) = normalize_model_name s := by
    apply map_id_of_mem
    intro a ha
    have hmem : a ∈ pyLower (pyStrip s) :=
      (afterLastSlash_isSuf (pyLower (pyStrip s))).subset (hpre.subset ha)
    rcases List.mem_map.mp hmem with ⟨b, _, hb⟩
    rw [← hb]
    exact toLower_toLower b
  have hEq : ∀ t : List Char, normalize_model_name t =
      normLoopAux ((afterLastSlash (pyLower (pyStrip t))).length + 1)
        (afterLastSlash (pyLower (pyStrip t))) := fun _ => rfl
  rw [hEq (normalize_model_name s), h, hlower, afterLastSlash_of_not_mem _ hslash]
  exact normLoopAux_of_fix _ _ hfix

theorem C8_witness :
    (pyStrip (normalize_model_name ("openai/gpt-4o-2024-08-06".toList)) =
      normalize_model_name ("openai/gpt-4o-2024-08-06".toList)) ∧
    normalize_model_name (normalize_model_name ("openai/gpt-4o-2024-08-06".toList)) =
      normalize_model_name ("openai/gpt-4o-2024-08-06".toList) :=
  ⟨by decide, C8_normalize_idempotent ("openai/gpt-4o-2024-08-06".toList) (by decide)⟩

/- ===================================================================
   ralphsweagent/models/litellm_model.py — stream guard, reconstruction,
   tool-call accumulation, usage fallback
   =================================================================== -/

/-- The streaming-relevant fields of `LitellmModelConfig`.  Window and
threshold are `Int` because the env-var parser can produce any integer. -/
structure LitellmModelConfig where
  stream_include_usage : Bool
  stream_guard_enabled : Bool
  stream_guard_window : Int
  stream_guard_tag_threshold : Int
deriving DecidableEq

/-- Python truthiness of an optional string (`None` and `""` are falsy). -/
def truthyStr : Option (List Char) → Bool
  | none => false
  | some s => !s.isEmpty

/-- A match of `CLOSING_TAG_RE` (`</[^>]+>`) anchored at the head of `cs`:
`</`, then a maximal nonempty run of non-`>` characters, then `>`.  Returns
the length of the match. -/
def closingTagMatchLen : List Char → Option Nat
  | '<' :: '/' :: rest =>
    match rest.findIdx? (fun c => c = '>') with
    | some p => if 1 ≤ p then some (p + 3) else none
    | none => none
  | _ => none

/-- The (start, length) pairs produced by `CLOSING_TAG_RE.finditer`: a
left-to-right non-overlapping scan.  Fuel (`≥` the list length) makes the
recursion structural. -/
def findCloseTagsAux : Nat → List Char → Nat → List (Nat × Nat)
  | 0, _, _ => []
  | _ + 1, [], _ => []
  | fuel + 1, c :: cs, pos =>
    match closingTagMatchLen (c :: cs) with
    | some len => (pos, len) :: findCloseTagsAux fuel ((c :: cs).drop len) (pos + len)
    | none => findCloseTagsAux fuel cs (pos + 1)

/-- All matches of `CLOSING_TAG_RE` in `s`, leftmost non-overlapping. -/
def findCloseTags (s : List Char) : List (Nat × Nat) :=
  findCloseTagsAux s.length s 0

/-- Python `content[-w:] if len(content) > w else content` for positive `w`. -/
def lastWindow (w : Nat) (content : List Char) : List Char :=
  if content.length > w then content.drop (content.length - w) else content

/-- `LitellmModel._should_trigger_stream_guard`. -/
def _should_trigger_stream_guard (cfg : LitellmModelConfig) (content : List Char) : Bool :=
  if !cfg.stream_guard_enabled then false
  else if cfg.stream_guard_window ≤ 0 || cfg.stream_guard_tag_threshold ≤ 0 then false
  else
    let window := lastWindow cfg.stream_guard_window.toNat content
    ((findCloseTags window).length : Int) ≥ cfg.stream_guard_tag_threshold

/-- `LitellmModel._truncate_stream_content`. -/
def _truncate_stream_content (cfg : LitellmModelConfig) (content : List Char) : List Char :=
  if cfg.stream_guard_window ≤ 0 || cfg.stream_guard_tag_threshold ≤ 0 then content
  else
    let window := lastWindow cfg.stream_guard_window.toNat content
    let ms := findCloseTags window
    if (ms.length : Int) < cfg.stream_guard_tag_threshold then content
    else
      let cutoff := content.length - window.length +
        (ms.getD (cfg.stream_guard_tag_threshold.toNat - 1) (0, 0)).1
      content.take cutoff

example : _should_trigger_stream_guard ⟨true, true, 200, 2⟩ ("</final></final>".toList) = true := by decide
example : _truncate_stream_content ⟨true, true, 200, 2⟩ ("</final></final>".toList) = "</final>".toList := by decide
example : _should_trigger_stream_guard ⟨true, true, 200, 3⟩ ("Hello world</final>".toList) = false := by decide

/-- One tool-call delta as normalized by `_normalize_tool_call_delta`:
`function` is the nested dict with optional `name`/`arguments`. -/
structure FunctionDelta where
  name : Option (List Char)
  arguments : Option (List Char)
deriving DecidableEq

/-- A normalized streamed tool-call delta (`index` defaults to 0 upstream). -/
structure ToolCallDelta where
  index : Nat
  id : Option (List Char)
  type : Option (List Char)
  function : Option FunctionDelta
deriving DecidableEq

/-- The per-index accumulator entry created by `setdefault`. -/
structure ToolCallEntry where
  id : Option (List Char)
  type : Option (List Char)
  name : Option (List Char)
  arguments : List Char
deriving DecidableEq

def emptyEntry : ToolCallEntry := ⟨none, none, none, []⟩

/-- The body of the `for` loop of `_accumulate_tool_calls` applied to one
entry: each truthy field overwrites (id/type/name) or appends (arguments).
The four sequential `if`s of the source touch disjoint fields, so they are
written as one record. -/
def updateEntry (e : ToolCallEntry) (tc : ToolCallDelta) : ToolCallEntry :=
  let f := tc.function.getD ⟨none, none⟩
  { id := if truthyStr tc.id then tc.id else e.id
    type := if truthyStr tc.type then tc.type else e.type
    name := if truthyStr f.name then f.name else e.name
    arguments := if truthyStr f.arguments then e.arguments ++ f.arguments.getD []
      else e.arguments }

/-- Association-list model of the Python dict `tool_calls_by_index`. -/
def getEntry (m : List (Nat × ToolCallEntry)) (i : Nat) : Option ToolCallEntry :=
  (m.find? (fun p => p.1 = i)).map (fun p => p.2)

def setEntry : List (Nat × ToolCallEntry) → Nat → ToolCallEntry → List (Nat × ToolCallEntry)
  | [], i, e => [(i, e)]
  | (j, x) :: rest, i, e => if i = j then (j, e) :: rest else (j, x) :: setEntry rest i e

/-- `LitellmModel._accumulate_tool_calls` over already-normalized deltas
(`none` models a delta that `_normalize_tool_call_delta` rejects as falsy). -/
def _accumulate_tool_calls (m : List (Nat × ToolCallEntry))
    (deltas : List (Option ToolCallDelta)) : List (Nat × ToolCallEntry) :=
  deltas.foldl
    (fun m otc =>
      match otc with
      | none => m
      | some tc => setEntry m tc.index (updateEntry (getEntry m tc.index |>.getD emptyEntry) tc))
    m

/-- A finished tool call (`SimpleNamespace(id=…, function=…, type=…)`). -/
structure ToolCall where
  id : Option (List Char)
  name : Option (List Char)
  arguments : List Char
  type : Option (List Char)
deriving DecidableEq

/-- `LitellmModel._build_tool_calls`: emit entries for `sorted(keys)`. -/
def _build_tool_calls (m : List (Nat × ToolCallEntry)) : List ToolCall :=
  ((m.map (fun p => p.1)).mergeSort (fun a b => a ≤ b)).map (fun i =>
    let e := (getEntry m i).getD emptyEntry
    ⟨e.id, e.name, e.arguments, e.type⟩)

/-- A JSON-ish usage value: an int or something of another type. -/
inductive PyVal where
  | int (n : Int)
  | nonInt
deriving DecidableEq

/-- The usage dict of a response; `none` fields model absent keys. -/
structure UsageDict where
  prompt_tokens : Option PyVal
  completion_tokens : Option PyVal
deriving DecidableEq

/-- `value` is an `int` and `> 0` (the check of `_is_usage_valid`). -/
def isPosInt : Option PyVal → Bool
  | some (PyVal.int n) => 0 < n
  | _ => false

/-- `LitellmModel._is_usage_valid` (`none` models a non-dict usage). -/
def _is_usage_valid : Option UsageDict → Bool
  | none => false
  | some u => isPosInt u.prompt_tokens && isPosInt u.completion_tokens

/-- A streamed delta (`delta` or the fallback `message` of a choice). -/
structure StreamDelta where
  role : Option (List Char)
  tool_calls : List ToolCallDelta
  content : Option (List Char)
deriving DecidableEq

/-- One choice of a streamed chunk. -/
structure StreamChoice where
  finish_reason : Option (List Char)
  delta : Option StreamDelta
  message : Option StreamDelta
deriving DecidableEq

/-- One streamed chunk; `none` in an `Option` field models a `None`/missing
attribute (the loop keeps the previous value in that case). -/
structure Chunk where
  model : Option (List Char)
  id : Option (List Char)
  created : Option Int
  usage : Option UsageDict
  choices : List StreamChoice
deriving DecidableEq

/-- The loop state of `_reconstruct_stream_response`. -/
structure ReconState where
  content_text : List Char
  tool_calls_by_index : List (Nat × ToolCallEntry)
  usage : Option UsageDict
  finish_reason : Option (List Char)
  role : List Char
  model : Option (List Char)
  response_id : Option (List Char)
  created : Option Int
deriving DecidableEq

def initReconState : ReconState :=
  ⟨[], [], none, none, ('a' :: ['s', 's', 'i', 's', 't', 'a', 'n', 't']), none, none, none⟩

/-- One iteration of the `for chunk in stream` loop.  Returns the new state
and whether the loop `break`s (the stream guard fired). -/
def processChunk (cfg : LitellmModelConfig) (st : ReconState) (chunk? : Option Chunk) :
    ReconState × Bool :=
  match chunk? with
  | none => (st, false)
  | some chunk =>
    let st := { st with
      model := match chunk.model with | some m => some m | none => st.model
      response_id := match chunk.id with | some i => some i | none => st.response_id
      created := match chunk.created with | some c => some c | none => st.created
      usage := match chunk.usage with | some u => some u | none => st.usage }
    match chunk.choices with
    | [] => (st, false)
    | choice :: _ =>
      let st := { st with
        finish_reason := match choice.finish_reason with
          | some f => some f
          | none => st.finish_reason }
      match choice.delta, choice.message with
      | none, none => (st, false)
      | d?, m? =>
        let delta := (d?.orElse (fun _ => m?)).getD ⟨none, [], none⟩
        let st := match delta.role with
          | some r => if r.isEmpty then st else { st with role := r }
          | none => st
        let st := if delta.tool_calls.isEmpty then st
          else { st with tool_calls_by_index :=
            _accumulate_tool_calls st.tool_calls_by_index (delta.tool_calls.map some) }
        match delta.content with
        | none => (st, false)
        | some d =>
          if d.isEmpty then (st, false)
          else
            let ct := st.content_text ++ d
            if _should_trigger_stream_guard cfg ct then
              ({ st with content_text := _truncate_stream_content cfg ct }, true)
            else
              ({ st with content_text := ct }, false)

/-- The content delta the loop actually appends for one chunk (empty when the
chunk is skipped at any stage before the content step). -/
def chunkContentDelta (chunk? : Option Chunk) : List Char :=
  match chunk? with
  | none => []
  | some chunk =>
    match chunk.choices with
    | [] => []
    | choice :: _ =>
      match choice.delta, choice.message with
      | none, none => []
      | d?, m? =>
        match ((d?.orElse (fun _ => m?)).getD ⟨none, [], none⟩).content with
        | none => []
        | some d => if d.isEmpty then [] else d

/-- The `for chunk in stream` loop: final state plus the number of chunks
consumed from the stream (a `break` stops consumption immediately). -/
def reconLoop (cfg : LitellmModelConfig) (st : ReconState) :
    List (Option Chunk) → ReconState × Nat
  | [] => (st, 0)
  | c :: rest =>
    let step := processChunk cfg st c
    if step.2 then (step.1, 1)
    else
      let next := reconLoop cfg step.1 rest
      (next.1, next.2 + 1)

/-- The reconstructed logical response of `_reconstruct_stream_response`. -/
structure ReconResult where
  content : Option (List Char)
  tool_calls : List ToolCall
  usage : Option UsageDict
  finish_reason : Option (List Char)
  role : List Char
  model : Option (List Char)
deriving DecidableEq

/-- `LitellmModel._reconstruct_stream_response` over a stream of chunks,
returning the synthesized response and the number of chunks consumed. -/
def _reconstruct_stream_response (cfg : LitellmModelConfig)
    (chunks : List (Option Chunk)) : ReconResult × Nat :=
  let r := reconLoop cfg initReconState chunks
  (⟨if r.1.content_text.isEmpty then none else some r.1.content_text,
    if r.1.tool_calls_by_index.isEmpty then [] else _build_tool_calls r.1.tool_calls_by_index,
    r.1.usage, r.1.finish_reason, r.1.role, r.1.model⟩, r.2)

/-- A message as sent to the API (only identity matters for these claims). -/
structure ApiMessage where
  role : List Char
  content : List Char
deriving DecidableEq

/-- Outcome of `_query_streaming`: the reconstructed streamed response, or a
non-streaming fallback call issued with the given messages. -/
inductive StreamingQueryOutcome where
  | streamed (r : ReconResult)
  | fellBack (messages : List ApiMessage)
deriving DecidableEq

/-- `LitellmModel._query_streaming`: reconstruct the stream; when usage
inclusion is requested and the reconstructed usage is invalid, issue one
non-streaming call for the same messages instead.  The second component
counts non-streaming backend calls. -/
def _query_streaming (cfg : LitellmModelConfig) (messages : List ApiMessage)
    (chunks : List (Option Chunk)) : StreamingQueryOutcome × Nat :=
  let response := (_reconstruct_stream_response cfg chunks).1
  if cfg.stream_include_usage && !(_is_usage_valid response.usage) then
    (StreamingQueryOutcome.fellBack messages, 1)
  else
    (StreamingQueryOutcome.streamed response, 0)

/-- A chunk carrying only one content delta (no metadata, no tool calls). -/
def contentChunk (d : List Char) : Chunk :=
  ⟨none, none, none, none, [⟨none, some ⟨none, [], some d⟩, none⟩]⟩

theorem processChunk_contentChunk (cfg : LitellmModelConfig) (st : ReconState) (d : List Char) :
    processChunk cfg st (some (contentChunk d)) =
      if d.isEmpty then (st, false)
      else if _should_trigger_stream_guard cfg (st.content_text ++ d) then
        ({ st with content_text := _truncate_stream_content cfg (st.content_text ++ d) }, true)
      else ({ st with content_text := st.content_text ++ d }, false) := by
  obtain ⟨ct, tc, us, fr, ro, mo, ri, cr⟩ := st
  simp [processChunk, contentChunk]

theorem reconLoop_contentChunks (cfg : LitellmModelConfig) (ds : List (List Char))
    (st : ReconState)
    (hg : ∀ n, _should_trigger_stream_guard cfg
      ((st.content_text ++ ds.flatten).take n) = false) :
    reconLoop cfg st (ds.map (fun d => some (contentChunk d))) =
      ({ st with content_text := st.content_text ++ ds.flatten }, ds.length) := by
  induction ds generalizing st with
  | nil =>
    obtain ⟨ct, tc, us, fr, ro, mo, ri, cr⟩ := st
    simp [reconLoop]
  | cons d rest ih =>
    have hgd : _should_trigger_stream_guard cfg (st.content_text ++ d) = false := by
      have h := hg (st.content_text ++ d).length
      rwa [List.flatten_cons, ← List.append_assoc, List.take_left] at h
    have hstep : processChunk cfg st (some (contentChunk d)) =
        ({ st with content_text := st.content_text ++ d }, false) := by
      rw [processChunk_contentChunk, hgd]
      by_cases hde : d.isEmpty
      · have hd0 : d = [] := by simpa using hde
        subst hd0
        obtain ⟨ct, tc, us, fr, ro, mo, ri, cr⟩ := st
        simp
      · simp [hde]
    have hg2 : ∀ n, _should_trigger_stream_guard cfg
        ((({ st with content_text := st.content_text ++ d }).content_text ++ rest.flatten).take n) =
          false := by
      intro n
      have h := hg n
      rwa [List.flatten_cons, ← List.append_assoc] at h
    obtain ⟨ct, tc, us, fr, ro, mo, ri, cr⟩ := st
    simp only [List.map_cons, reconLoop, hstep]
    rw [ih _ hg2]
    simp [List.flatten_cons, List.append_assoc]

set_option maxHeartbeats 4000000 in
/-- C3: with the stream repetition guard enabled (window 200, tag threshold
2), a single fragment `</final></final>` reconstructs to content `</final>`
and exactly one fragment is consumed, whatever follows on the stream; with
threshold 3, `Hello world</final>` split into any sequence of content
fragments reconstructs unchanged with every fragment consumed; in general a
fragment whose appended content trips the guard stops the loop immediately
with the content truncated, and when the trailing window holds at least
`threshold` closing-tag matches the truncation cuts at the threshold-th
match within the window. -/
theorem C3_stream_guard_truncation :
    (∀ rest : List (Option Chunk),
      _reconstruct_stream_response ⟨true, true, 200, 2⟩
          (some (contentChunk ("</final></final>".toList)) :: rest) =
        (⟨some ("</final>".toList), [], none, none, ("assistant".toList), none⟩, 1)) ∧
    (∀ ds : List (List Char), ds.flatten = "Hello world</final>".toList →
      (_reconstruct_stream_response ⟨true, true, 200, 3⟩
          (ds.map (fun d => some (contentChunk d)))).1.content =
        some ("Hello world</final>".toList) ∧
      (_reconstruct_stream_response ⟨true, true, 200, 3⟩
          (ds.map (fun d => some (contentChunk d)))).2 = ds.length) ∧
    (∀ cfg : LitellmModelConfig, ∀ st : ReconState, ∀ d : List Char,
      ∀ rest : List (Option Chunk),
      d.isEmpty = false →
      _should_trigger_stream_guard cfg (st.content_text ++ d) = true →
      reconLoop cfg st (some (contentChunk d) :: rest) =
        ({ st with content_text := _truncate_stream_content cfg (st.content_text ++ d) }, 1)) ∧
    (∀ cfg : LitellmModelConfig, ∀ content : List Char,
      0 < cfg.stream_guard_window → 0 < cfg.stream_guard_tag_threshold →
      cfg.stream_guard_tag_threshold.toNat ≤
        (findCloseTags (lastWindow cfg.stream_guard_window.toNat content)).length →
      _truncate_stream_content cfg content =
        content.take (content.length -
          (lastWindow cfg.stream_guard_window.toNat content).length +
          ((findCloseTags (lastWindow cfg.stream_guard_window.toNat content)).getD
            (cfg.stream_guard_tag_threshold.toNat - 1) (0, 0)).1)) := by
  refine ⟨?_, ?_, ?_, ?_⟩
  · intro rest
    rfl
  · intro ds hdsj
    have hg : ∀ n, _should_trigger_stream_guard ⟨true, true, 200, 3⟩
        ((initReconState.content_text ++ ds.flatten).take n) = false := by
      intro n
      rw [hdsj]
      show _should_trigger_stream_guard _ (([] ++ "Hello world</final>".toList).take n) = false
      rw [List.nil_append]
      rcases Nat.le_total n ("Hello world</final>".toList).length with h | h
      · have hball : ∀ m, m ≤ ("Hello world</final>".toList).length →
            _should_trigger_stream_guard ⟨true, true, 200, 3⟩
              (("Hello world</final>".toList).take m) = false := by decide
        exact hball n h
      · rw [List.take_of_length_le h]
        decide
    have hloop := reconLoop_contentChunks ⟨true, true, 200, 3⟩ ds initReconState hg
    constructor
    · show (_reconstruct_stream_response _ _).1.content = _
      unfold _reconstruct_stream_response
      rw [hloop]
      simp [initReconState, hdsj]
    · show (_reconstruct_stream_response _ _).2 = _
      unfold _reconstruct_stream_response
      rw [hloop]
  · intro cfg st d rest hde hgt
    have hstep : processChunk cfg st (some (contentChunk d)) =
        ({ st with content_text := _truncate_stream_content cfg (st.content_text ++ d) },
          true) := by
      rw [processChunk_contentChunk, hde, hgt]
      simp
    simp only [reconLoop, hstep]
    simp
  · intro cfg content hw ht hm
    unfold _truncate_stream_content
    rw [if_neg (by simp; omega)]
    rw [if_neg (by simp; omega)]

theorem C3_witness :
    (_reconstruct_stream_response ⟨true, true, 200, 2⟩
        [some (contentChunk ("</final></final>".toList))] =
      (⟨some ("</final>".toList), [], none, none, ("assistant".toList), none⟩, 1)) ∧
    (_reconstruct_stream_response ⟨true, true, 200, 3⟩
        (["Hello ".toList, "world</final>".toList].map (fun d => some (contentChunk d)))).1.content =
      some ("Hello world</final>".toList) :=
  ⟨C3_stream_guard_truncation.1 [],
   (C3_stream_guard_truncation.2.1 ["Hello ".toList, "world</final>".toList] (by decide)).1⟩

theorem guard_false_of_nonpos (cfg : LitellmModelConfig)
    (hw : cfg.stream_guard_window ≤ 0 ∨ cfg.stream_guard_tag_threshold ≤ 0)
    (content : List Char) : _should_trigger_stream_guard cfg content = false := by
  unfold _should_trigger_stream_guard
  split
  · rfl
  · have hc : (decide (cfg.stream_guard_window ≤ 0) ||
        decide (cfg.stream_guard_tag_threshold ≤ 0)) = true := by
      rcases hw with h | h <;> simp [h]
    rw [if_pos hc]

theorem guard_false_of_disabled (cfg : LitellmModelConfig)
    (hd : cfg.stream_guard_enabled = false) (content : List Char) :
    _should_trigger_stream_guard cfg content = false := by
  unfold _should_trigger_stream_guard
  rw [hd]
  simp

theorem truncate_id_of_nonpos (cfg : LitellmModelConfig)
    (hw : cfg.stream_guard_window ≤ 0 ∨ cfg.stream_guard_tag_threshold ≤ 0)
    (content : List Char) : _truncate_stream_content cfg content = content := by
  unfold _truncate_stream_content
  have hc : (decide (cfg.stream_guard_window ≤ 0) ||
      decide (cfg.stream_guard_tag_threshold ≤ 0)) = true := by
    rcases hw with h | h <;> simp [h]
  rw [if_pos hc]

theorem processChunk_guard_irrel (cfg cfg2 : LitellmModelConfig) (st : ReconState)
    (c : Option Chunk)
    (h1 : ∀ ct, _should_trigger_stream_guard cfg ct = false)
    (h2 : ∀ ct, _should_trigger_stream_guard cfg2 ct = false) :
    processChunk cfg st c = processChunk cfg2 st c := by
  simp only [processChunk, h1, h2, Bool.false_eq_true, if_false]

theorem reconLoop_guard_irrel (cfg cfg2 : LitellmModelConfig)
    (h1 : ∀ ct, _should_trigger_stream_guard cfg ct = false)
    (h2 : ∀ ct, _should_trigger_stream_guard cfg2 ct = false) :
    ∀ chunks st, reconLoop cfg st chunks = reconLoop cfg2 st chunks := by
  intro chunks
  induction chunks with
  | nil => intro st; rfl
  | cons c rest ih =>
    intro st
    simp only [reconLoop, processChunk_guard_irrel cfg cfg2 st c h1 h2, ih]

/-- C9: when the configured stream-guard window or tag threshold is zero or
negative, the guard never triggers and truncation returns the content
unchanged even with the guard enabled, and the reconstruction loop behaves
exactly as if the guard were disabled. -/
theorem C9_nonpositive_params_disable_guard (cfg : LitellmModelConfig)
    (hw : cfg.stream_guard_window ≤ 0 ∨ cfg.stream_guard_tag_threshold ≤ 0) :
    (∀ content, _should_trigger_stream_guard cfg content = false) ∧
    (∀ content, _truncate_stream_content cfg content = content) ∧
    (∀ st chunks, reconLoop cfg st chunks =
      reconLoop { cfg with stream_guard_enabled := false } st chunks) := by
  refine ⟨guard_false_of_nonpos cfg hw, truncate_id_of_nonpos cfg hw, ?_⟩
  intro st chunks
  exact reconLoop_guard_irrel cfg _ (guard_false_of_nonpos cfg hw)
    (guard_false_of_disabled _ rfl) chunks st

theorem C9_witness :
    _should_trigger_stream_guard ⟨true, true, 0, 2⟩ ("</a></a></a>".toList) = false ∧
    _truncate_stream_content ⟨true, true, 0, 2⟩ ("</a></a></a>".toList) =
      "</a></a></a>".toList :=
  ⟨(C9_nonpositive_params_disable_guard ⟨true, true, 0, 2⟩ (Or.inl (by decide))).1 _,
   (C9_nonpositive_params_disable_guard ⟨true, true, 0, 2⟩ (Or.inl (by decide))).2.1 _⟩

/-- C4: when streaming with usage inclusion is requested and the
reconstructed response's usage is absent or lacks positive integer
prompt/completion token counts, exactly one non-streaming call is issued for
the same messages and its response is used instead; when the reconstructed
usage is valid, no fallback call is made and the streamed reconstruction is
returned. -/
theorem C4_streaming_usage_fallback (cfg : LitellmModelConfig)
    (messages : List ApiMessage) (chunks : List (Option Chunk))
    (hinc : cfg.stream_include_usage = true) :
    (_is_usage_valid ((_reconstruct_stream_response cfg chunks).1.usage) = false →
      _query_streaming cfg messages chunks =
        (StreamingQueryOutcome.fellBack messages, 1)) ∧
    (_is_usage_valid ((_reconstruct_stream_response cfg chunks).1.usage) = true →
      _query_streaming cfg messages chunks =
        (StreamingQueryOutcome.streamed ((_reconstruct_stream_response cfg chunks).1), 0)) := by
  constructor <;> intro h <;> simp [_query_streaming, hinc, h]

theorem C4_witness :
    (_is_usage_valid ((_reconstruct_stream_response ⟨true, false, 0, 0⟩ []).1.usage) = false) ∧
    _query_streaming ⟨true, false, 0, 0⟩ [⟨"user".toList, "hi".toList⟩] [] =
      (StreamingQueryOutcome.fellBack [⟨"user".toList, "hi".toList⟩], 1) :=
  ⟨by decide,
   (C4_streaming_usage_fallback ⟨true, false, 0, 0⟩ [⟨"user".toList, "hi".toList⟩] [] rfl).1
     (by decide)⟩

/- ===== claim C5: tool-call delta accumulation ===== -/

/-- The nested function delta of a tool-call delta (`get("function") or` an
empty dict). -/
def fnOf (tc : ToolCallDelta) : FunctionDelta :=
  tc.function.getD ⟨none, none⟩

/-- The value left by repeatedly overwriting on every truthy sight (what the
accumulation loop computes for `id`, `type` and `name`). -/
def lastTruthy (l : List ToolCallDelta) (f : ToolCallDelta → Option (List Char)) :
    Option (List Char) :=
  l.foldl (fun acc d => if truthyStr (f d) then f d else acc) none

/-- Concatenation, in arrival order, of the truthy `arguments` fragments. -/
def argsConcat (l : List ToolCallDelta) : List Char :=
  l.foldl (fun acc d => if truthyStr (fnOf d).arguments then
    acc ++ (fnOf d).arguments.getD [] else acc) []

/-- The deltas carrying index `i`, in arrival order. -/
def deltasAt (deltas : List ToolCallDelta) (i : Nat) : List ToolCallDelta :=
  deltas.filter (fun d => d.index = i)

/-- The tool call that the accumulated entry for index `i` denotes, described
independently of the accumulator: latest truthy sight wins for `id`, `type`
and function `name`; truthy `arguments` fragments are concatenated. -/
def specToolCallAt (deltas : List ToolCallDelta) (i : Nat) : ToolCall :=
  ⟨lastTruthy (deltasAt deltas i) (fun d => d.id),
   lastTruthy (deltasAt deltas i) (fun d => (fnOf d).name),
   argsConcat (deltasAt deltas i),
   lastTruthy (deltasAt deltas i) (fun d => d.type)⟩

theorem getEntry_setEntry_same (m : List (Nat × ToolCallEntry)) (i : Nat) (e : ToolCallEntry) :
    getEntry (setEntry m i e) i = some e := by
  induction m with
  | nil => simp [setEntry, getEntry]
  | cons p rest ih =>
    obtain ⟨j, x⟩ := p
    by_cases hij : i = j
    · subst hij
      simp [setEntry, getEntry]
    · simp only [setEntry, if_neg hij]
      unfold getEntry
      rw [List.find?_cons_of_neg _ (by simpa using fun h => hij h.symm)]
      exact ih

theorem getEntry_setEntry_other (m : List (Nat × ToolCallEntry)) (i j : Nat)
    (e : ToolCallEntry) (hij : i ≠ j) :
    getEntry (setEntry m j e) i = getEntry m i := by
  induction m with
  | nil =>
    unfold setEntry getEntry
    rw [List.find?_cons_of_neg _ (by simpa using fun h => hij h.symm)]
  | cons p rest ih =>
    obtain ⟨k, x⟩ := p
    by_cases hjk : j = k
    · subst hjk
      unfold setEntry getEntry
      rw [if_pos rfl]
      rw [List.find?_cons_of_neg _ (by simpa using fun h => hij h.symm)]
      rw [List.find?_cons_of_neg _ (by simpa using fun h => hij h.symm)]
    · simp only [setEntry, if_neg hjk]
      by_cases hik : k = i
      · subst hik
        unfold getEntry
        rw [List.find?_cons_of_pos _ (by simp), List.find?_cons_of_pos _ (by simp)]
      · unfold getEntry
        rw [List.find?_cons_of_neg _ (by simpa using hik),
          List.find?_cons_of_neg _ (by simpa using hik)]
        exact ih

theorem mem_keys_setEntry (m : List (Nat × ToolCallEntry)) (i k : Nat) (e : ToolCallEntry) :
    k ∈ (setEntry m i e).map (fun p => p.1) ↔ k ∈ m.map (fun p => p.1) ∨ k = i := by
  induction m with
  | nil => simp [setEntry]
  | cons p rest ih =>
    obtain ⟨j, x⟩ := p
    by_cases hij : i = j
    · subst hij
      simp [setEntry]
      tauto
    · simp only [setEntry, if_neg hij, List.map_cons, List.mem_cons, ih]
      tauto

theorem nodup_keys_setEntry (m : List (Nat × ToolCallEntry)) (i : Nat) (e : ToolCallEntry)
    (h : (m.map (fun p => p.1)).Nodup) : ((setEntry m i e).map (fun p => p.1)).Nodup := by
  induction m with
  | nil => simp [setEntry]
  | cons p rest ih =>
    obtain ⟨j, x⟩ := p
    rw [List.map_cons, List.nodup_cons] at h
    by_cases hij : i = j
    · subst hij
      simpa [setEntry] using h
    · simp only [setEntry, if_neg hij, List.map_cons, List.nodup_cons]
      refine ⟨?_, ih h.2⟩
      rw [mem_keys_setEntry]
      rintro (hmem | hji)
      · exact h.1 hmem
      · exact hij hji.symm

theorem accumulate_cons (m : List (Nat × ToolCallEntry)) (tc : ToolCallDelta)
    (rest : List (Option ToolCallDelta)) :
    _accumulate_tool_calls m (some tc :: rest) =
      _accumulate_tool_calls
        (setEntry m tc.index (updateEntry ((getEntry m tc.index).getD emptyEntry) tc))
        rest := rfl

theorem getEntry_accumulate (deltas : List ToolCallDelta) :
    ∀ (m : List (Nat × ToolCallEntry)) (i : Nat),
    getEntry (_accumulate_tool_calls m (deltas.map some)) i =
      (deltasAt deltas i).foldl
        (fun oe tc => some (updateEntry (oe.getD emptyEntry) tc)) (getEntry m i) := by
  induction deltas with
  | nil => intro m i; rfl
  | cons d rest ih =>
    intro m i
    rw [List.map_cons, accumulate_cons, ih]
    by_cases hdi : d.index = i
    · subst hdi
      rw [getEntry_setEntry_same]
      unfold deltasAt
      rw [List.filter_cons_of_pos (by simp), List.foldl_cons]
    · rw [getEntry_setEntry_other _ _ _ _ (fun h => hdi h.symm)]
      unfold deltasAt
      rw [List.filter_cons_of_neg (by simpa using hdi)]

theorem foldF_some (l : List ToolCallDelta) :
    ∀ e : ToolCallEntry,
    l.foldl (fun oe tc => some (updateEntry (oe.getD emptyEntry) tc)) (some e) =
      some (l.foldl updateEntry e) := by
  induction l with
  | nil => intro e; rfl
  | cons d rest ih =>
    intro e
    rw [List.foldl_cons, List.foldl_cons]
    exact ih (updateEntry e d)

theorem foldF_none_cons (d : ToolCallDelta) (l : List ToolCallDelta) :
    (d :: l).foldl (fun oe tc => some (updateEntry (oe.getD emptyEntry) tc)) none =
      some ((d :: l).foldl updateEntry emptyEntry) := by
  rw [List.foldl_cons, List.foldl_cons]
  exact foldF_some l (updateEntry emptyEntry d)

theorem foldUpdate_id (l : List ToolCallDelta) :
    ∀ e : ToolCallEntry, (l.foldl updateEntry e).id =
      l.foldl (fun acc d => if truthyStr d.id then d.id else acc) e.id := by
  induction l with
  | nil => intro e; rfl
  | cons d rest ih =>
    intro e
    rw [List.foldl_cons, List.foldl_cons, ih]
    rfl

theorem foldUpdate_type (l : List ToolCallDelta) :
    ∀ e : ToolCallEntry, (l.foldl updateEntry e).type =
      l.foldl (fun acc d => if truthyStr d.type then d.type else acc) e.type := by
  induction l with
  | nil => intro e; rfl
  | cons d rest ih =>
    intro e
    rw [List.foldl_cons, List.foldl_cons, ih]
    rfl

theorem foldUpdate_name (l : List ToolCallDelta) :
    ∀ e : ToolCallEntry, (l.foldl updateEntry e).name =
      l.foldl (fun acc d => if truthyStr (fnOf d).name then (fnOf d).name else acc) e.name := by
  induction l with
  | nil => intro e; rfl
  | cons d rest ih =>
    intro e
    rw [List.foldl_cons, List.foldl_cons, ih]
    rfl

theorem foldUpdate_args (l : List ToolCallDelta) :
    ∀ e : ToolCallEntry, (l.foldl updateEntry e).arguments =
      l.foldl (fun acc d => if truthyStr (fnOf d).arguments then
        acc ++ (fnOf d).arguments.getD [] else acc) e.arguments := by
  induction l with
  | nil => intro e; rfl
  | cons d rest ih =>
    intro e
    rw [List.foldl_cons, List.foldl_cons, ih]
    rfl

theorem mem_keys_iff_getEntry (m : List (Nat × ToolCallEntry)) (i : Nat) :
    i ∈ m.map (fun p => p.1) ↔ (getEntry m i).isSome = true := by
  unfold getEntry
  rw [Option.isSome_map', List.find?_isSome]
  simp

theorem nodup_keys_accumulate (deltas : List ToolCallDelta) :
    ∀ m : List (Nat × ToolCallEntry), (m.map (fun p => p.1)).Nodup →
    ((_accumulate_tool_calls m (deltas.map some)).map (fun p => p.1)).Nodup := by
  induction deltas with
  | nil => intro m h; exact h
  | cons d rest ih =>
    intro m h
    rw [List.map_cons, accumulate_cons]
    exact ih _ (nodup_keys_setEntry m d.index _ h)

/-- Counterexample to C5 as stated: two deltas for index 0 carry `id` "a"
then "b"; the accumulated tool call ends up with "b" — a later truthy
fragment overwrites, the value is not frozen at its first non-null sight. -/
theorem C5_counterexample :
    _build_tool_calls (_accumulate_tool_calls []
        [some ⟨0, some ('a' :: []), none, none⟩, some ⟨0, some ('b' :: []), none, none⟩]) =
      [⟨some ('b' :: []), none, [], none⟩] ∧
    (some ('b' :: []) : Option (List Char)) ≠ some ('a' :: []) := by
  constructor
  · unfold _build_tool_calls
    have hkeys : ((_accumulate_tool_calls []
        [some ⟨0, some ('a' :: []), none, none⟩,
         some ⟨0, some ('b' :: []), none, none⟩]).map (fun p => p.1)) = [0] := by decide
    rw [hkeys, List.mergeSort_singleton]
    decide
  · decide

theorem natLe_pairwise_mergeSort (l : List Nat) :
    (l.mergeSort (fun a b => a ≤ b)).Pairwise (fun a b : Nat => a ≤ b) := by
  refine (List.sorted_mergeSort ?_ ?_ l).imp ?_
  · intro a b c hab hbc
    simp at *
    omega
  · intro a b
    simp [Nat.le_total]
  · intro a b h
    simpa using h

/-- C5 (amended): tool-call deltas are accumulated per integer index such
that for each index the `id`, `type` and function `name` take the value of
the LATEST fragment in which they appear truthy (later truthy fragments
overwrite earlier ones; `None` and empty strings are skipped), the function
`arguments` strings are concatenated in arrival order (never overwritten),
and the final tool calls are emitted in strictly ascending index order, one
per distinct index appearing among the deltas. -/
theorem C5_tool_call_accumulation (deltas : List ToolCallDelta) :
    ∃ ks : List Nat,
      List.Pairwise (fun a b => a < b) ks ∧
      (∀ i, i ∈ ks ↔ ∃ d ∈ deltas, d.index = i) ∧
      _build_tool_calls (_accumulate_tool_calls [] (deltas.map some)) =
        ks.map (specToolCallAt deltas) := by
  set m := _accumulate_tool_calls [] (deltas.map some) with hm
  refine ⟨(m.map (fun p => p.1)).mergeSort (fun a b => a ≤ b), ?_, ?_, ?_⟩
  · have hsorted := natLe_pairwise_mergeSort (m.map (fun p => p.1))
    have hkeys : (m.map (fun p => p.1)).Nodup := by
      rw [hm]
      exact nodup_keys_accumulate deltas [] (by simp)
    have hnodup : ((m.map (fun p => p.1)).mergeSort (fun a b => a ≤ b)).Nodup :=
      (List.mergeSort_perm (m.map (fun p => p.1)) _).symm.nodup hkeys
    exact (hsorted.and hnodup).imp (fun h => Nat.lt_of_le_of_ne h.1 h.2)
  · intro i
    rw [List.mem_mergeSort, mem_keys_iff_getEntry, hm, getEntry_accumulate]
    have h0 : getEntry [] i = none := rfl
    rw [h0]
    cases hda : deltasAt deltas i with
    | nil =>
      simp only [List.foldl_nil]
      unfold deltasAt at hda
      rw [List.filter_eq_nil_iff] at hda
      constructor
      · intro h; simp at h
      · rintro ⟨d, hd, hdi⟩
        exact absurd (by simpa using hdi) (hda d hd)
    | cons d l =>
      rw [foldF_none_cons]
      constructor
      · intro _
        have hdmem : d ∈ deltasAt deltas i := by rw [hda]; exact List.mem_cons_self d l
        unfold deltasAt at hdmem
        rcases List.mem_filter.mp hdmem with ⟨hmem, hp⟩
        exact ⟨d, hmem, by simpa using hp⟩
      · intro _; rfl
  · unfold _build_tool_calls
    apply List.map_congr_left
    intro i hi
    rw [List.mem_mergeSort, mem_keys_iff_getEntry] at hi
    have hge := getEntry_accumulate deltas [] i
    rw [← hm] at hge
    have h0 : getEntry [] i = none := rfl
    rw [h0] at hge
    cases hda : deltasAt deltas i with
    | nil =>
      rw [hda] at hge
      simp only [List.foldl_nil] at hge
      rw [hge] at hi
      simp at hi
    | cons d l =>
      rw [hda, foldF_none_cons] at hge
      simp only [hge, Option.getD_some]
      unfold specToolCallAt lastTruthy argsConcat
      rw [hda, foldUpdate_id, foldUpdate_type, foldUpdate_name, foldUpdate_args]
      rfl

/- ===================================================================
   ralphsweagent/agents/enhancements.py — _patched_query and
   _update_context_window_stats
   =================================================================== -/

/-- Python `int()` on a rational: truncation toward zero. -/
def pyTrunc (q : ℚ) : Int :=
  if q < 0 then -((-q).floor) else q.floor

/-- Bridge between the executable `Rat.floor` and Mathlib's floor. -/
theorem floorBridge (r : ℚ) : ⌊r⌋ = Rat.floor r :=
  (Rat.floor_def).trans (Rat.floor_def' r).symm

/-- The limit fields of the agent config used by `_patched_query`
(`step_limit` is an integer, `cost_limit` a float). -/
structure AgentConfig where
  step_limit : Int
  cost_limit : ℚ
deriving DecidableEq

/-- The enriched message returned by `model.query` as the agent sees it:
`cost` is `extra.cost` (0 when missing), `prompt_tokens` is the value
`_extract_prompt_tokens` digs out of the response usage (`none` when the
response exposes none). -/
structure AgentMessage where
  role : List Char
  content : List Char
  cost : ℚ
  prompt_tokens : Option Int
  context_left_percent : Option Int
  exit_status : Option (List Char)
deriving DecidableEq

/-- The per-run state touched by `_patched_query`. -/
structure AgentState where
  n_calls : Nat
  cost : ℚ
  messages : List AgentMessage
  context_window_max : Option Nat
  context_window_prompt_tokens : Option Int
  context_left_percent : Option Int
deriving DecidableEq

/-- `_update_context_window_stats`: skip silently without a prompt-token
count; record the count; skip silently when no (positive) budget is known
(`if not self.context_window_max`); otherwise clamp the computed percentage
into [0, 100] and attach it to both the run state and the message. -/
def _update_context_window_stats (st : AgentState) (msg : AgentMessage) :
    AgentState × AgentMessage :=
  match msg.prompt_tokens with
  | none => (st, msg)
  | some p =>
    let st := { st with context_window_prompt_tokens := some p }
    match st.context_window_max with
    | none => (st, msg)
    | some mx =>
      if mx = 0 then (st, msg)
      else
        let left := pyTrunc (100 * (1 - (p : ℚ) / (mx : ℚ)))
        let clamped := max 0 (min 100 left)
        ({ st with context_left_percent := some clamped },
         { msg with context_left_percent := some clamped })

/-- Outcome of one `_patched_query` step. -/
inductive QueryStepOutcome where
  | limitsExceeded (exitMsg : AgentMessage)
  | success (msg : AgentMessage)
  | modelError
deriving DecidableEq

/-- The synthesized exit message of the `LimitsExceeded` flow interrupt. -/
def limitsMessage : AgentMessage :=
  ⟨('e' :: ['x', 'i', 't']), ("LimitsExceeded".toList), 0, none, none,
   some ("LimitsExceeded".toList)⟩

/-- `_patched_query`: limit check first, then context-window resolution
(`resolved` abstracts the pure lookup `_resolve_context_window_max`
performs), then the call counter increment, then the backend call (`none`
models the call raising), then stats/cost/history updates.  The last
component counts backend invocations. -/
def _patched_query (cfg : AgentConfig) (st : AgentState)
    (resolved : Option Nat) (backend : Option AgentMessage) :
    QueryStepOutcome × AgentState × Nat :=
  if (0 < cfg.step_limit ∧ cfg.step_limit ≤ (st.n_calls : Int)) ∨
      (0 < cfg.cost_limit ∧ cfg.cost_limit ≤ st.cost) then
    (QueryStepOutcome.limitsExceeded limitsMessage, st, 0)
  else
    let st1 := match st.context_window_max with
      | none => { st with context_window_max := resolved }
      | some _ => st
    let st2 := { st1 with n_calls := st1.n_calls + 1 }
    match backend with
    | none => (QueryStepOutcome.modelError, st2, 1)
    | some msg =>
      let upd := _update_context_window_stats st2 msg
      let st3 := { upd.1 with cost := upd.1.cost + upd.2.cost }
      let st4 := { st3 with messages := st3.messages ++ [upd.2] }
      (QueryStepOutcome.success upd.2, st4, 1)

theorem update_stats_preserves (st : AgentState) (msg : AgentMessage) :
    (_update_context_window_stats st msg).1.cost = st.cost ∧
    (_update_context_window_stats st msg).2.cost = msg.cost ∧
    (_update_context_window_stats st msg).1.n_calls = st.n_calls := by
  unfold _update_context_window_stats
  cases msg.prompt_tokens with
  | none => exact ⟨rfl, rfl, rfl⟩
  | some p =>
    cases st.context_window_max with
    | none => exact ⟨rfl, rfl, rfl⟩
    | some mx =>
      by_cases hmx : mx = 0
      · simp [hmx]
      · simp [hmx]

/-- C2: when the step count has reached a positive step limit or the
cumulative cost has reached a positive cost limit at the start of a query
step, the backend is never invoked (zero backend calls), the state is
unchanged, and the produced exit message carries exit status
`LimitsExceeded`. -/
theorem C2_limit_check_before_query (cfg : AgentConfig) (st : AgentState)
    (resolved : Option Nat) (backend : Option AgentMessage)
    (h : (0 < cfg.step_limit ∧ cfg.step_limit ≤ (st.n_calls : Int)) ∨
        (0 < cfg.cost_limit ∧ cfg.cost_limit ≤ st.cost)) :
    _patched_query cfg st resolved backend =
      (QueryStepOutcome.limitsExceeded limitsMessage, st, 0) ∧
    limitsMessage.exit_status = some ("LimitsExceeded".toList) ∧
    limitsMessage.role = ('e' :: ['x', 'i', 't']) := by
  refine ⟨?_, rfl, rfl⟩
  unfold _patched_query
  rw [if_pos h]

theorem C2_witness :
    ((0 < (3 : Int) ∧ (3 : Int) ≤ ((3 : Nat) : Int)) ∨
      (0 < (0 : ℚ) ∧ (0 : ℚ) ≤ (0 : ℚ))) ∧
    _patched_query ⟨3, 0⟩ ⟨3, 0, [], none, none, none⟩ none none =
      (QueryStepOutcome.limitsExceeded limitsMessage, ⟨3, 0, [], none, none, none⟩, 0) :=
  ⟨Or.inl (by decide),
   (C2_limit_check_before_query ⟨3, 0⟩ ⟨3, 0, [], none, none, none⟩ none none
     (Or.inl (by decide))).1⟩

/-- C10: in a query step that passes the limit check, the call counter is
incremented before the backend is invoked — a backend call that raises
(modelled as `none`) still leaves `n_calls` incremented by one while the
cost is unchanged; on success the cost grows by exactly the returned
message's cost. -/
theorem C10_calls_counted_before_cost (cfg : AgentConfig) (st : AgentState)
    (resolved : Option Nat)
    (hlim : ¬((0 < cfg.step_limit ∧ cfg.step_limit ≤ (st.n_calls : Int)) ∨
      (0 < cfg.cost_limit ∧ cfg.cost_limit ≤ st.cost))) :
    ((_patched_query cfg st resolved none).1 = QueryStepOutcome.modelError ∧
      (_patched_query cfg st resolved none).2.1.n_calls = st.n_calls + 1 ∧
      (_patched_query cfg st resolved none).2.1.cost = st.cost ∧
      (_patched_query cfg st resolved none).2.2 = 1) ∧
    (∀ msg : AgentMessage,
      (_patched_query cfg st resolved (some msg)).2.1.n_calls = st.n_calls + 1 ∧
      (_patched_query cfg st resolved (some msg)).2.1.cost = st.cost + msg.cost ∧
      (_patched_query cfg st resolved (some msg)).2.2 = 1) := by
  constructor
  · unfold _patched_query
    rw [if_neg hlim]
    cases hmax : st.context_window_max <;> exact ⟨rfl, rfl, rfl, rfl⟩
  · intro msg
    unfold _patched_query
    rw [if_neg hlim]
    cases hmax : st.context_window_max with
    | none =>
      refine ⟨?_, ?_, rfl⟩
      · show (_update_context_window_stats
            { st with context_window_max := resolved, n_calls := st.n_calls + 1 }
            msg).1.n_calls = st.n_calls + 1
        exact (update_stats_preserves _ msg).2.2
      · show (_update_context_window_stats
              { st with context_window_max := resolved, n_calls := st.n_calls + 1 }
              msg).1.cost +
            (_update_context_window_stats
              { st with context_window_max := resolved, n_calls := st.n_calls + 1 }
              msg).2.cost = st.cost + msg.cost
        rw [(update_stats_preserves _ msg).1, (update_stats_preserves _ msg).2.1]
    | some mx =>
      refine ⟨?_, ?_, rfl⟩
      · show (_update_context_window_stats { st with n_calls := st.n_calls + 1 }
            msg).1.n_calls = st.n_calls + 1
        exact (update_stats_preserves _ msg).2.2
      · show (_update_context_window_stats { st with n_calls := st.n_calls + 1 }
              msg).1.cost +
            (_update_context_window_stats { st with n_calls := st.n_calls + 1 }
              msg).2.cost = st.cost + msg.cost
        rw [(update_stats_preserves _ msg).1, (update_stats_preserves _ msg).2.1]

theorem C10_witness :
    (¬(((0 : Int) < 0 ∧ (0 : Int) ≤ ((0 : Nat) : Int)) ∨
      ((0 : ℚ) < 0 ∧ (0 : ℚ) ≤ (0 : ℚ)))) ∧
    (_patched_query ⟨0, 0⟩ ⟨0, 0, [], none, none, none⟩ none none).1 =
      QueryStepOutcome.modelError ∧
    (_patched_query ⟨0, 0⟩ ⟨0, 0, [], none, none, none⟩ none none).2.1.n_calls = 0 + 1 :=
  ⟨by simp,
   ((C10_calls_counted_before_cost ⟨0, 0⟩ ⟨0, 0, [], none, none, none⟩ none (by simp)).1).1,
   ((C10_calls_counted_before_cost ⟨0, 0⟩ ⟨0, 0, [], none, none, none⟩ none (by simp)).1).2.1⟩

theorem clamp_pyTrunc_eq_clamp_floor (q : ℚ) :
    max 0 (min 100 (pyTrunc q)) = max 0 (min 100 (Rat.floor q)) := by
  unfold pyTrunc
  split
  · next hq =>
    have h1 : 0 ≤ Rat.floor (-q) := by
      rw [← floorBridge]
      exact Int.floor_nonneg.mpr (by linarith)
    have h2 : Rat.floor q ≤ 0 := by
      rw [← floorBridge]
      exact Int.floor_nonpos (le_of_lt hq)
    omega
  · rfl

/-- C6 (amended): after every model response exposing a prompt-token count,
with a positive resolved budget `mx`, the context-left percentage attached
to both the run state and the message equals
`clamp(0, 100, floor(100 * (1 - prompt_tokens / mx)))` — the code truncates
toward zero with `int()`, which agrees with `floor` after clamping — and is
always within [0, 100]; 6400 prompt tokens against a 128000-token budget
give exactly 95; without a prompt count or a known budget the update is
skipped silently. -/
theorem C6_context_left_percent (st : AgentState) (msg : AgentMessage) :
    (∀ p mx, msg.prompt_tokens = some p → st.context_window_max = some mx → 0 < mx →
      ((_update_context_window_stats st msg).1.context_left_percent =
          some (max 0 (min 100 (Rat.floor (100 * ((1 : ℚ) - (p : ℚ) / (mx : ℚ)))))) ∧
        (_update_context_window_stats st msg).2.context_left_percent =
          some (max 0 (min 100 (Rat.floor (100 * ((1 : ℚ) - (p : ℚ) / (mx : ℚ)))))) ∧
        0 ≤ max 0 (min 100 (Rat.floor (100 * ((1 : ℚ) - (p : ℚ) / (mx : ℚ))))) ∧
        max 0 (min 100 (Rat.floor (100 * ((1 : ℚ) - (p : ℚ) / (mx : ℚ))))) ≤ 100)) ∧
    (msg.prompt_tokens = none → _update_context_window_stats st msg = (st, msg)) ∧
    (∀ p, msg.prompt_tokens = some p → st.context_window_max = none →
      _update_context_window_stats st msg =
        ({ st with context_window_prompt_tokens := some p }, msg)) ∧
    (_update_context_window_stats ⟨0, 0, [], some 128000, none, none⟩
        ⟨('a' :: []), [], 0, some 6400, none, none⟩).2.context_left_percent =
      some 95 := by
  refine ⟨?_, ?_, ?_, ?_⟩
  · intro p mx hp hmx hpos
    unfold _update_context_window_stats
    simp only [hp, hmx]
    rw [if_neg (by omega)]
    refine ⟨?_, ?_, by omega, by omega⟩
    · show some (max 0 (min 100 (pyTrunc _))) = _
      rw [clamp_pyTrunc_eq_clamp_floor]
    · show some (max 0 (min 100 (pyTrunc _))) = _
      rw [clamp_pyTrunc_eq_clamp_floor]
  · intro hp
    unfold _update_context_window_stats
    simp only [hp]
  · intro p hp hmx
    unfold _update_context_window_stats
    simp only [hp, hmx]
  · show some (max 0 (min 100 (pyTrunc (100 * ((1 : ℚ) -
      ((6400 : Int) : ℚ) / ((128000 : Nat) : ℚ)))))) = some 95
    have h95 : pyTrunc (100 * ((1 : ℚ) - ((6400 : Int) : ℚ) / ((128000 : Nat) : ℚ))) = 95 := by
      unfold pyTrunc
      rw [if_neg (by norm_num), ← floorBridge]
      norm_num
    rw [h95]
    decide

/-- Counterexample to C6 as stated: 1000 prompt tokens against a 3000-token
budget give 100 * (1 - 1/3) = 66.66…; the code truncates to 66 while the
claim's rounding would give 67. -/
theorem C6_counterexample :
    (_update_context_window_stats ⟨0, 0, [], some 3000, none, none⟩
        ⟨('a' :: []), [], 0, some 1000, none, none⟩).2.context_left_percent =
      some 66 ∧
    max 0 (min 100 (round ((100 : ℚ) * (1 - (1000 : ℚ) / 3000)))) = 67 := by
  constructor
  · show some (max 0 (min 100 (pyTrunc (100 * ((1 : ℚ) -
      ((1000 : Int) : ℚ) / ((3000 : Nat) : ℚ)))))) = some 66
    have h66 : pyTrunc (100 * ((1 : ℚ) - ((1000 : Int) : ℚ) / ((3000 : Nat) : ℚ))) = 66 := by
      unfold pyTrunc
      rw [if_neg (by norm_num), ← floorBridge]
      norm_num
    rw [h66]
    decide
  · norm_num [round_eq]

theorem C6_witness :
    ((⟨('a' :: []), [], 0, some 6400, none, none⟩ : AgentMessage).prompt_tokens =
      some 6400) ∧
    (_update_context_window_stats ⟨0, 0, [], some 128000, none, none⟩
        ⟨('a' :: []), [], 0, some 6400, none, none⟩).2.context_left_percent =
      some (max 0 (min 100 (Rat.floor (100 * ((1 : ℚ) -
        ((6400 : Int) : ℚ) / ((128000 : Nat) : ℚ)))))) :=
  ⟨rfl,
   ((C6_context_left_percent ⟨0, 0, [], some 128000, none, none⟩
      ⟨('a' :: []), [], 0, some 6400, none, none⟩).1 6400 128000 rfl rfl
      (by decide)).2.1⟩

/- ===================================================================
   Retry-on-missing-tool-call (ModelClient.query, spec section 4.4 step 5)
   =================================================================== -/

/-- Result of parsing one backend response into actions. -/
inductive ParseOutcome where
  | ok (actions : List (List Char))
  | noToolCalls
  | badFormat
deriving DecidableEq

/-- One backend response as the retry flow sees it: the assistant's raw
content, the computed cost, and its parse outcome. -/
structure SpecResponse where
  assistantContent : Option (List Char)
  cost : ℚ
  parsed : ParseOutcome
deriving DecidableEq

/-- One message of the caller-visible history. -/
structure HistoryMsg where
  role : List Char
  content : Option (List Char)
deriving DecidableEq

/-- The synthetic nudge user message of the retry flow. -/
def nudgeUserMessage : HistoryMsg :=
  ⟨('u' :: ['s', 'e', 'r']), some ("You must respond using the bash tool.".toList)⟩

/-- The successfully returned message: parsed actions plus total cost. -/
structure ReturnedMessage where
  actions : List (List Char)
  cost : ℚ
deriving DecidableEq

/-- Success, or a raised FormatError. -/
inductive QueryResult where
  | ok (msg : ReturnedMessage)
  | formatError
deriving DecidableEq

/-- Observable outcome of one `query`: the result, the caller-visible
history afterwards, and the tool choice of each backend call in order. -/
structure RetryQueryOutput where
  result : QueryResult
  history : List HistoryMsg
  calls : List (Option (List Char))
deriving DecidableEq

/-- Modelled from the spec: the retry-on-missing-tool-call flow of
`LitellmModel.query` (spec section 4.4 step 5).  The implementation is
absent from `src/` — only its tests and a caller that toggles
`retry_missing_tool_calls` exist — so the flow follows the spec's words: on
a "no tool calls found" parse failure only, when the retry flag is on and
the backend is not already forced to always produce a tool call
(tool choice "required"), append the assistant's toolless reply plus a
synthetic user nudge to the caller-visible history and reissue the query
exactly once with tool choice forced to "required"; if the retry parses,
keep the nudge messages and return the retried actions with both calls'
costs summed; if the retry also fails, restore the history to its pre-retry
state and raise FormatError.  `first` and `retry` are the backend's
responses to the two possible calls. -/
def specRetryQuery (retryFlag : Bool) (cfgToolChoice : Option (List Char))
    (history : List HistoryMsg) (first retry : SpecResponse) : RetryQueryOutput :=
  match first.parsed with
  | ParseOutcome.ok actions =>
    ⟨QueryResult.ok ⟨actions, first.cost⟩, history, [cfgToolChoice]⟩
  | ParseOutcome.badFormat =>
    ⟨QueryResult.formatError, history, [cfgToolChoice]⟩
  | ParseOutcome.noToolCalls =>
    if retryFlag = false ∨ cfgToolChoice = some ("required".toList) then
      ⟨QueryResult.formatError, history, [cfgToolChoice]⟩
    else
      let history2 := history ++
        [⟨('a' :: ['s', 's', 'i', 's', 't', 'a', 'n', 't']), first.assistantContent⟩,
         nudgeUserMessage]
      match retry.parsed with
      | ParseOutcome.ok actions =>
        ⟨QueryResult.ok ⟨actions, first.cost + retry.cost⟩, history2,
         [cfgToolChoice, some ("required".toList)]⟩
      | _ =>
        ⟨QueryResult.formatError, history, [cfgToolChoice, some ("required".toList)]⟩

/-- C1: with the retry flag enabled and the backend not already forced to
`required`, a first response parsing to "no tool calls found" makes the
query append the assistant's toolless reply plus the synthetic nudge user
message and reissue exactly once with tool choice `required`; a parsing
retry keeps the nudge messages in history and returns the retried actions
with both calls' costs summed; a failing retry restores the history exactly
and raises FormatError. -/
theorem C1_retry_missing_tool_call (cfgToolChoice : Option (List Char))
    (history : List HistoryMsg) (first retry : SpecResponse)
    (hc : cfgToolChoice ≠ some ("required".toList))
    (hfirst : first.parsed = ParseOutcome.noToolCalls) :
    (∀ actions, retry.parsed = ParseOutcome.ok actions →
      specRetryQuery true cfgToolChoice history first retry =
        ⟨QueryResult.ok ⟨actions, first.cost + retry.cost⟩,
         history ++
           [⟨('a' :: ['s', 's', 'i', 's', 't', 'a', 'n', 't']), first.assistantContent⟩,
            nudgeUserMessage],
         [cfgToolChoice, some ("required".toList)]⟩) ∧
    (retry.parsed = ParseOutcome.noToolCalls ∨ retry.parsed = ParseOutcome.badFormat →
      specRetryQuery true cfgToolChoice history first retry =
        ⟨QueryResult.formatError, history,
         [cfgToolChoice, some ("required".toList)]⟩) := by
  constructor
  · intro actions hretry
    unfold specRetryQuery
    simp only [hfirst, hretry]
    rw [if_neg (by simpa using hc)]
  · intro hretry
    unfold specRetryQuery
    simp only [hfirst]
    rw [if_neg (by simpa using hc)]
    rcases hretry with h | h <;> simp only [h]

theorem C1_witness :
    ((none : Option (List Char)) ≠ some ("required".toList)) ∧
    specRetryQuery true none [⟨('u' :: ['s', 'e', 'r']), some ('t' :: [])⟩]
        ⟨some ("Thinking...".toList), 1, ParseOutcome.noToolCalls⟩
        ⟨none, 2, ParseOutcome.ok [('l' :: ['s'])]⟩ =
      ⟨QueryResult.ok ⟨[('l' :: ['s'])], (1 : ℚ) + 2⟩,
       [⟨('u' :: ['s', 'e', 'r']), some ('t' :: [])⟩,
        ⟨('a' :: ['s', 's', 'i', 's', 't', 'a', 'n', 't']), some ("Thinking...".toList)⟩,
        nudgeUserMessage],
       [none, some ("required".toList)]⟩ :=
  ⟨by decide,
   (C1_retry_missing_tool_call none [⟨('u' :: ['s', 'e', 'r']), some ('t' :: [])⟩]
      ⟨some ("Thinking...".toList), 1, ParseOutcome.noToolCalls⟩
      ⟨none, 2, ParseOutcome.ok [('l' :: ['s'])]⟩ (by decide) rfl).1
     [('l' :: ['s'])] rfl⟩

theorem C5_witness :
    ∃ ks : List Nat,
      List.Pairwise (fun a b => a < b) ks ∧
      (∀ i, i ∈ ks ↔
        ∃ d ∈ ([⟨0, some ('a' :: []), none, none⟩] : List ToolCallDelta), d.index = i) ∧
      _build_tool_calls (_accumulate_tool_calls []
          (([⟨0, some ('a' :: []), none, none⟩] : List ToolCallDelta).map some)) =
        ks.map (specToolCallAt [⟨0, some ('a' :: []), none, none⟩]) :=
  C5_tool_call_accumulation [⟨0, some ('a' :: []), none, none⟩]
